import Mathlib

/-!
Verification of the IF-Image-Demo notebook's core pipeline:
the record adapter (`ImageEmbeddingDataset.__init__`), the item accessor
(`__getitem__`), the batch loop over the `DataLoader`, the preprocessing
transform, and the TSV result writer.

Python values that flow through record fields (str, bytes, int, None) are
modelled by the inductive `Value`; UTF-8-decodable bytes are carried by their
decoded text. The local filesystem (`os.path.exists`) and image decoding
(`PIL.Image.open`) are environments passed in as functions.
-/

/-- A duck-typed Python value as read from a record field:
`None`, `str`, UTF-8 `bytes` (represented by the decoded text), or `int`. -/
inductive Value where
  | vNone : Value
  | vStr : String → Value
  | vBytes : String → Value
  | vInt : Int → Value
deriving DecidableEq, Repr

/-- Python truthiness of a `Value` (`if image_path and ...`):
`None` is falsy, empty `str`/`bytes` are falsy, `0` is falsy. -/
def pyTruthy : Value → Bool
  | .vNone => false
  | .vStr s => s ≠ ""
  | .vBytes b => b ≠ ""
  | .vInt n => n ≠ 0

/-- Python `str(value)` for the values that can appear in a record field. -/
def pyStr : Value → String
  | .vNone => "None"
  | .vStr s => s
  | .vBytes b => "b" ++ b
  | .vInt n => toString n

/-- The text of a path-like value: a `str` is itself, `bytes` decode as
UTF-8.  (The dataset loader yields `str`/`bytes` paths; `os.path.basename`
on any other truthy value would raise in Python and is out of model scope.) -/
def pathStr : Value → String
  | .vNone => ""
  | .vStr s => s
  | .vBytes b => b
  | .vInt n => toString n

/-- `os.path.basename`: the component after the last `/`
(the whole string when there is no `/`, empty on a trailing `/`). -/
def basename (p : String) : String :=
  String.mk (((p.toList.reverse).takeWhile (fun c => c ≠ '/')).reverse)

/-- `safe_decode(value, default)` from `ImageEmbeddingDataset.__init__`:
bytes decode as UTF-8 text, `None` becomes the default, anything else goes
through `str(...)`. -/
def safe_decode (v : Value) (default : String) : String :=
  match v with
  | .vBytes b => b
  | .vNone => default
  | v => pyStr v

/-- A record, as consumed through `record.get(field_name)`: a total map from
field names to values, with `Value.vNone` standing for an absent field. -/
def RecordF : Type := String → Value

/-- The seven metadata field names read by the adapter, in source order. -/
def metadataKeys : List String :=
  ["treatment", "plate", "well", "channel", "hpa_antibody_id", "ensembl_id", "ark"]

/-- The metadata dictionary built for one accepted record:
every field goes through `safe_decode` with default `""`. -/
def buildMetadata (pre : String) (r : RecordF) : List (String × String) :=
  metadataKeys.map (fun k => (k, safe_decode (r (pre ++ "/" ++ k)) ""))

/-- One entry of the adapter's parallel lists
(`image_paths[i]`, `image_ids[i]`, `metadata[i]`). -/
structure IndexedItem where
  image_path : Value
  item_id : String
  metadata : List (String × String)
deriving DecidableEq, Repr

/-- The default used when indexing out of range in the model. -/
def defaultItem : IndexedItem :=
  { image_path := .vNone, item_id := "", metadata := [] }

/-- The acceptance test of the adapter loop:
`if image_path and os.path.exists(image_path)`.
`fs` is the filesystem environment (`os.path.exists`). -/
def accepts (fs : Value → Bool) (pre : String) (r : RecordF) : Bool :=
  pyTruthy (r (pre ++ "/full_path")) && fs (r (pre ++ "/full_path"))

/-- The Indexed Item built for an accepted record: the raw path value,
`os.path.basename` of it (decoded when bytes), and the coerced metadata. -/
def mkItem (pre : String) (r : RecordF) : IndexedItem :=
  { image_path := r (pre ++ "/full_path")
    item_id := basename (pathStr (r (pre ++ "/full_path")))
    metadata := buildMetadata pre r }

/-- The cap test at the top of the adapter loop:
`if max_images and len(self.image_paths) >= max_images: break`.
`max_images` may be `None` (`Option.none`); `0` is falsy. -/
def capReached (maxImages : Option Nat) (count : Nat) : Bool :=
  match maxImages with
  | none => false
  | some k => decide (k ≠ 0) && decide (count ≥ k)

/-- The record loop of `ImageEmbeddingDataset.__init__`: iterate records in
order, break when the cap is reached, append an item for each record whose
path field is truthy and exists on the filesystem, silently skip the rest.
`acc` is the list of items accepted so far. -/
def adapterLoop (fs : Value → Bool) (pre : String) (maxImages : Option Nat) :
    List RecordF → List IndexedItem → List IndexedItem
  | [], acc => acc
  | r :: rest, acc =>
    if capReached maxImages acc.length then acc
    else if accepts fs pre r then
      adapterLoop fs pre maxImages rest (acc ++ [mkItem pre r])
    else
      adapterLoop fs pre maxImages rest acc

/-- The full adapter: the ordered item list built by
`ImageEmbeddingDataset.__init__`. -/
def adapterItems (fs : Value → Bool) (pre : String) (maxImages : Option Nat)
    (records : List RecordF) : List IndexedItem :=
  adapterLoop fs pre maxImages records []

/-- The uncapped, unskipped reference stream: one item per accepted record,
in record order. -/
def acceptedItems (fs : Value → Bool) (pre : String) (records : List RecordF) :
    List IndexedItem :=
  (records.filter (accepts fs pre)).map (mkItem pre)

/-! ### Image preprocessor (`transforms.Compose([...])`, cell 14)

Pixel values are modelled as rationals; a raw image carries its size and a
total pixel function (row, column, channel), a preprocessed tensor is
channel-major (channel, row, column). -/

/-- A decoded raster image (`PIL` image after `.convert('RGB')`):
raw channel values in `0 .. 255`. -/
structure RawImage where
  height : Nat
  width : Nat
  pixel : Nat → Nat → Nat → ℚ

/-- A `3 × 224 × 224` tensor, channel-major. -/
structure Tensor3 where
  pix : Nat → Nat → Nat → ℚ

/-- The per-channel normalization means `[0.485, 0.456, 0.406]`. -/
def meanC : Nat → ℚ
  | 0 => 485 / 1000
  | 1 => 456 / 1000
  | 2 => 406 / 1000
  | _ => 0

/-- The per-channel normalization standard deviations `[0.229, 0.224, 0.225]`. -/
def stdC : Nat → ℚ
  | 0 => 229 / 1000
  | 1 => 224 / 1000
  | 2 => 225 / 1000
  | _ => 1

/-- `transforms.Resize((224, 224))`, modelled by index resampling
(a constant image stays constant, which is all the claims use). -/
def resize224 (img : RawImage) : RawImage :=
  { height := 224
    width := 224
    pixel := fun i j c => img.pixel (i * img.height / 224) (j * img.width / 224) c }

/-- `transforms.ToTensor()`: channel-major, raw values scaled into `[0,1]`. -/
def toTensor (img : RawImage) : Tensor3 :=
  { pix := fun c i j => img.pixel i j c / 255 }

/-- `transforms.Normalize(mean, std)`: per-channel affine normalization. -/
def normalizeT (t : Tensor3) : Tensor3 :=
  { pix := fun c i j => (t.pix c i j - meanC c) / stdC c }

/-- The composed transform of cell 14: resize, to-tensor, normalize. -/
def transformPipe (img : RawImage) : Tensor3 :=
  normalizeT (toTensor (resize224 img))

/-- `Image.new('RGB', (224, 224), (0, 0, 0))`: the all-black placeholder. -/
def blackImage : RawImage :=
  { height := 224, width := 224, pixel := fun _ _ _ => 0 }

/-- `torch.zeros(3, 224, 224)`: the placeholder when no transform is set. -/
def zeros224 : Tensor3 :=
  { pix := fun _ _ _ => 0 }

/-- The mean over one channel of a `3 × 224 × 224` tensor. -/
def channelMean (c : Nat) (t : Tensor3) : ℚ :=
  (∑ i ∈ Finset.range 224, ∑ j ∈ Finset.range 224, t.pix c i j) / (224 * 224)

/-! ### Item accessor (`ImageEmbeddingDataset.__getitem__`) -/

/-- What `__getitem__` returns as its image: the raw decoded image when no
transform is configured, a tensor otherwise. -/
inductive ImageOut where
  | raw : RawImage → ImageOut
  | tens : Tensor3 → ImageOut

/-- The `(image, image_id, metadata)` triple returned by `__getitem__`,
together with whether the error branch printed a failure message. -/
structure GetItemResult where
  image : ImageOut
  image_id : String
  metadata : List (String × String)
  errorLogged : Bool

/-- The accessor's environment: the configured transform (`None` or a
function) and the image decoder (`Image.open(...).convert('RGB')`,
`none` modelling a raised decoding exception). -/
structure EmbedConfig where
  transform : Option (RawImage → Tensor3)
  decodeImg : Value → Option RawImage

/-- The substituted image of the `except` branch: the transform applied to
the black `224 × 224` image when a transform is configured, otherwise a
`3 × 224 × 224` zero tensor. -/
def placeholderImage (transform : Option (RawImage → Tensor3)) : ImageOut :=
  match transform with
  | some t => ImageOut.tens (t blackImage)
  | none => ImageOut.tens zeros224

/-- `__getitem__` on one item: decode the image and transform it; on a
decoding failure log and substitute the placeholder; the identifier and
metadata are returned unchanged either way. -/
def getitemOfItem (cfg : EmbedConfig) (it : IndexedItem) : GetItemResult :=
  match cfg.decodeImg it.image_path with
  | some img =>
    { image :=
        match cfg.transform with
        | some t => ImageOut.tens (t img)
        | none => ImageOut.raw img
      image_id := it.item_id
      metadata := it.metadata
      errorLogged := false }
  | none =>
    { image := placeholderImage cfg.transform
      image_id := it.item_id
      metadata := it.metadata
      errorLogged := true }

/-- `__getitem__(idx)` against the adapter's item list. -/
def getitem (cfg : EmbedConfig) (items : List IndexedItem) (idx : Nat) :
    GetItemResult :=
  getitemOfItem cfg (items.getD idx defaultItem)

/-! ### Batch partitioning (`DataLoader(..., batch_size=B, shuffle=False)`) -/

/-- Consecutive batches of `B` items, the last possibly smaller: the batch
structure of a non-shuffling `DataLoader` with `drop_last=False`. -/
def chunkList {α : Type u} (B : Nat) : List α → List (List α)
  | [] => []
  | x :: xs => (x :: xs.take (B - 1)) :: chunkList B (xs.drop (B - 1))
termination_by l => l.length
decreasing_by
  simp only [List.length_drop, List.length_cons]
  omega

/-! ### Batch embedding loop (cell 15) -/

/-- The three result lists of the embedding loop
(`embeddings_list`, `image_ids_list`, `metadata_list`). -/
structure RunState where
  embs : List (List ℚ)
  ids : List String
  mds : List (List (String × String))
deriving DecidableEq

/-- Dictionary lookup with default `""` (a key miss cannot happen for the
metadata built by the adapter). -/
def lookupStr (k : String) (md : List (String × String)) : String :=
  ((md.find? (fun p => p.1 == k)).map Prod.snd).getD ("")

/-- The default `DataLoader` collation of a batch of metadata dictionaries:
a dictionary from each key to the list of the batch's values, batch order
preserved. -/
def collateMeta (keys : List String) (batch : List (List (String × String))) :
    List (String × List String) :=
  keys.map (fun k => (k, batch.map (fun md => lookupStr k md)))

/-- `individual_metadata` for position `i` of a collated batch
(`{key: value_list[i] for ...}`). -/
def uncollateAt (collated : List (String × List String)) (i : Nat) :
    List (String × String) :=
  collated.map (fun p => (p.1, p.2.getD i ("")))

/-- The per-item metadata dictionaries rebuilt from one batch:
`batch_size = len(list(metadata_batch.values())[0])`, then un-collate at
each position. -/
def batchMds (triples : List GetItemResult) : List (List (String × String)) :=
  let collated := collateMeta metadataKeys (triples.map GetItemResult.metadata)
  let bs := ((collated.head?).map (fun p => p.2.length)).getD 0
  (List.range bs).map (uncollateAt collated)

/-- One iteration of the embedding loop on a collated batch: run the model
once on the batch, then extend the three result lists. -/
def stepBatch (embedFn : List ImageOut → List (List ℚ)) (s : RunState)
    (triples : List GetItemResult) : RunState :=
  { embs := s.embs ++ embedFn (triples.map GetItemResult.image)
    ids := s.ids ++ triples.map GetItemResult.image_id
    mds := s.mds ++ batchMds triples }

/-- The whole embedding loop: batch the index range, fetch each batch's
triples through `__getitem__`, and fold the loop body over the batches. -/
def runBatches (embedFn : List ImageOut → List (List ℚ)) (cfg : EmbedConfig)
    (items : List IndexedItem) (B : Nat) : RunState :=
  ((chunkList B (List.range items.length)).map
    (fun ixs => ixs.map (getitem cfg items))).foldl (stepBatch embedFn) ⟨[], [], []⟩

/-- An Embedding Row: identifier, vector and metadata of one image. -/
structure EmbeddingRow where
  image_id : String
  vector : List ℚ
  metadata : List (String × String)
deriving DecidableEq, Repr

/-- The rows formed by the three positionally aligned result lists. -/
def collectRows (s : RunState) : List EmbeddingRow :=
  ((s.ids.zip s.embs).zip s.mds).map (fun p =>
    { image_id := p.1.1, vector := p.1.2, metadata := p.2 })

/-! ### Result writer (cell 17: `embeddings_df.to_csv(..., sep='\t', index=False)`) -/

/-- Decimal rendering of a natural number (Python `str(i)`), digit helper. -/
def digitChar (d : Nat) : Char :=
  match d with
  | 0 => '0'
  | 1 => '1'
  | 2 => '2'
  | 3 => '3'
  | 4 => '4'
  | 5 => '5'
  | 6 => '6'
  | 7 => '7'
  | 8 => '8'
  | 9 => '9'
  | _ => '*'

/-- Decimal digit accumulation, most significant digit first. -/
def natStrAux : Nat → List Char → List Char
  | 0, acc => acc
  | n + 1, acc => natStrAux ((n + 1) / 10) (digitChar ((n + 1) % 10) :: acc)
termination_by n _ => n
decreasing_by
  exact Nat.div_lt_self (Nat.succ_pos n) (by omega)

/-- Decimal rendering of a natural number (Python `str(i)`). -/
def natStr (n : Nat) : String :=
  if n = 0 then "0" else String.mk (natStrAux n [])

/-- The header row written by `to_csv`: `image_id`, then `dim_0 .. dim_{k-1}`
(the `dim_{i}` column names of `embeddings_df`). -/
def headerCells (k : Nat) : List String :=
  "image_id" :: (List.range k).map (fun i => "dim_" ++ natStr i)

/-- One data row: the `image_id` column inserted at position 0, then the
vector entries rendered by the numeric encoder `enc`. -/
def rowCells (enc : ℚ → String) (r : EmbeddingRow) : List String :=
  r.image_id :: r.vector.map enc

/-- The whole table as rows of cells: header first, then one data row per
Embedding Row, in input order. -/
def writeTSVCells (enc : ℚ → String) (k : Nat) (rows : List EmbeddingRow) :
    List (List String) :=
  headerCells k :: rows.map (rowCells enc)

/-- Interleave a separator character between parts. -/
def joinSep (sep : Char) : List (List Char) → List Char
  | [] => []
  | [p] => p
  | p :: q :: ps => p ++ sep :: joinSep sep (q :: ps)

/-- One physical line of the TSV file: tab-joined cells plus the
terminating newline that `to_csv` writes after every row. -/
def encodeLine (line : List String) : List Char :=
  joinSep '\t' (line.map String.toList) ++ ['\n']

/-- The character stream written to `image_embeddings.tsv`. -/
def writeTSVChars (enc : ℚ → String) (k : Nat) (rows : List EmbeddingRow) :
    List Char :=
  ((writeTSVCells enc k rows).map encodeLine).flatten

/-- Split a character stream at every occurrence of a separator;
always returns at least one (possibly empty) part. -/
def splitChar (sep : Char) : List Char → List (List Char)
  | [] => [[]]
  | c :: rest =>
    match splitChar sep rest with
    | [] => [[]]
    | p :: ps => if c = sep then [] :: p :: ps else (c :: p) :: ps

/-- Modelled from the spec: the notebook only writes the TSV (`to_csv`) and
never re-reads it, so the reparse step of the spec's round-trip property
(§8) is modelled here — split into lines, skip blank lines, drop the header
row, split every data line at tabs, read `image_id` from the first cell and
the vector from the remaining cells through the numeric decoder `dec`. -/
def parseTSV (dec : String → Option ℚ) (file : List Char) :
    List (String × List ℚ) :=
  (((splitChar '\n' file).filter (fun l => !l.isEmpty)).drop 1).map (fun line =>
    match splitChar '\t' line with
    | [] => ("", [])
    | c :: cs => (String.mk c, cs.map (fun cell => ((dec (String.mk cell)).getD 0))))

/-! ### Concrete instances used by the witnesses -/

/-- A concrete numeric encoder: `num/den` in lowest terms. -/
def encRat (q : ℚ) : String :=
  toString q.num ++ "/" ++ toString q.den

/-- Decimal digit value of a character. -/
def digitVal (c : Char) : Option Nat :=
  if c = '0' then some 0
  else if c = '1' then some 1
  else if c = '2' then some 2
  else if c = '3' then some 3
  else if c = '4' then some 4
  else if c = '5' then some 5
  else if c = '6' then some 6
  else if c = '7' then some 7
  else if c = '8' then some 8
  else if c = '9' then some 9
  else none

/-- Parse a nonempty decimal digit string. -/
def decNatChars (l : List Char) : Option Nat :=
  match l with
  | [] => none
  | _ =>
    l.foldl
      (fun acc c =>
        match acc, digitVal c with
        | some n, some d => some (n * 10 + d)
        | _, _ => none)
      (some 0)

/-- Parse an optionally `-`-signed decimal integer. -/
def decIntChars (l : List Char) : Option Int :=
  match l with
  | '-' :: rest => (decNatChars rest).map (fun n => -(n : Int))
  | _ => (decNatChars l).map (fun n => (n : Int))

/-- A concrete numeric decoder inverting `encRat`. -/
def decRat (s : String) : Option ℚ :=
  match splitChar '/' s.toList with
  | [a, b] =>
    match decIntChars a, decNatChars b with
    | some n, some d => if d = 0 then none else some (mkRat n d)
    | _, _ => none
  | _ => none

/-- A demo record with a resolvable `str` path and mixed-type metadata. -/
def demoRecord1 : RecordF := fun k =>
  if k = "all_images/full_path" then .vStr "/data/a.png"
  else if k = "all_images/treatment" then .vStr "vorinostat"
  else if k = "all_images/plate" then .vInt 12
  else .vNone

/-- A demo record whose path points to a missing file. -/
def demoRecord2 : RecordF := fun k =>
  if k = "all_images/full_path" then .vStr "/data/missing.png" else .vNone

/-- A demo record with a resolvable `bytes` path and `bytes` metadata. -/
def demoRecord3 : RecordF := fun k =>
  if k = "all_images/full_path" then .vBytes "/data/b.png"
  else if k = "all_images/well" then .vBytes "B2"
  else .vNone

/-- A demo record with no path field at all. -/
def demoRecord4 : RecordF := fun _ => .vNone

/-- A third demo record with a resolvable path. -/
def demoRecord5 : RecordF := fun k =>
  if k = "all_images/full_path" then .vStr "/data/c.png" else .vNone

/-- The demo record sequence. -/
def demoRecords : List RecordF :=
  [demoRecord1, demoRecord2, demoRecord3, demoRecord4, demoRecord5]

/-- The demo filesystem: exactly three of the paths exist. -/
def demoFs : Value → Bool := fun v =>
  v = Value.vStr "/data/a.png" || v = Value.vBytes "/data/b.png" ||
    v = Value.vStr "/data/c.png"

/-- The demo adapter output (three accepted items). -/
def demoItems : List IndexedItem :=
  adapterItems demoFs "all_images" none demoRecords

/-- A demo accessor environment: no transform; only `/data/a.png` decodes. -/
def demoCfg : EmbedConfig :=
  { transform := none
    decodeImg := fun v =>
      if v = Value.vStr "/data/a.png" then some blackImage else none }

/-- Demo Embedding Rows for the writer round-trip witness. -/
def demoRows : List EmbeddingRow :=
  [ { image_id := "a.png", vector := [mkRat 1 2, mkRat (-3) 4], metadata := [] },
    { image_id := "b.png", vector := [mkRat 0 1, mkRat 5 2], metadata := [] } ]

/-! ## Theorems -/

/-! ### Record Adapter -/

theorem capReached_none (n : Nat) : capReached none n = false := rfl

theorem capReached_zero (n : Nat) : capReached (some 0) n = false := by
  simp [capReached]

theorem acceptedItems_nil (fs : Value → Bool) (pre : String) :
    acceptedItems fs pre [] = [] := rfl

theorem acceptedItems_cons_pos (fs : Value → Bool) (pre : String) (r : RecordF)
    (rest : List RecordF) (h : accepts fs pre r = true) :
    acceptedItems fs pre (r :: rest) = mkItem pre r :: acceptedItems fs pre rest := by
  simp [acceptedItems, List.filter_cons, h]

theorem acceptedItems_cons_neg (fs : Value → Bool) (pre : String) (r : RecordF)
    (rest : List RecordF) (h : accepts fs pre r = false) :
    acceptedItems fs pre (r :: rest) = acceptedItems fs pre rest := by
  simp [acceptedItems, List.filter_cons, h]

/-- With a falsy cap (`None` or `0`) the adapter loop appends one item per
accepted record, in order, with no truncation. -/
theorem adapterLoop_nocap (fs : Value → Bool) (pre : String) (m : Option Nat)
    (hm : ∀ n, capReached m n = false) (records : List RecordF) :
    ∀ acc, adapterLoop fs pre m records acc = acc ++ acceptedItems fs pre records := by
  induction records with
  | nil => intro acc; simp [adapterLoop, acceptedItems]
  | cons r rest ih =>
    intro acc
    rw [adapterLoop, hm]
    cases hacc : accepts fs pre r with
    | true =>
      simp only [Bool.false_eq_true, if_false, hacc, if_true]
      rw [ih, acceptedItems_cons_pos fs pre r rest hacc, List.append_assoc,
        List.singleton_append]
    | false =>
      simp only [Bool.false_eq_true, if_false, hacc]
      rw [ih, acceptedItems_cons_neg fs pre r rest hacc]

/-- With a nonzero cap `k`, the adapter loop stops as soon as `k` items are
held, and otherwise fills up with the accepted stream, truncated. -/
theorem adapterLoop_cap (fs : Value → Bool) (pre : String) (k : Nat)
    (hk : k ≠ 0) (records : List RecordF) :
    ∀ acc, adapterLoop fs pre (some k) records acc =
      if k ≤ acc.length then acc
      else acc ++ (acceptedItems fs pre records).take (k - acc.length) := by
  induction records with
  | nil =>
    intro acc
    rw [adapterLoop, acceptedItems_nil]
    simp
  | cons r rest ih =>
    intro acc
    have hcap : capReached (some k) acc.length = decide (k ≤ acc.length) := by
      simp [capReached, hk, ge_iff_le]
    rw [adapterLoop, hcap]
    by_cases hlen : k ≤ acc.length
    · simp [hlen]
    · simp only [hlen, decide_eq_true_eq, if_false]
      cases hacc : accepts fs pre r with
      | false =>
        simp only [Bool.false_eq_true, if_false]
        rw [ih, if_neg hlen, acceptedItems_cons_neg fs pre r rest hacc]
      | true =>
        simp only [if_true]
        rw [ih, acceptedItems_cons_pos fs pre r rest hacc]
        simp only [List.length_append, List.length_cons, List.length_nil,
          Nat.zero_add]
        by_cases h2 : k ≤ acc.length + 1
        · have hk1 : k - acc.length = 1 := by omega
          rw [if_pos h2, hk1, List.take_succ_cons, List.take_zero]
        · have hk2 : k - acc.length = (k - (acc.length + 1)) + 1 := by omega
          rw [if_neg h2, hk2, List.take_succ_cons, List.append_assoc,
            List.singleton_append]

/-- Every item the adapter ever returns is `mkItem` of one of the input
records. -/
theorem mem_adapterItems (fs : Value → Bool) (pre : String) (m : Option Nat)
    (records : List RecordF) (it : IndexedItem)
    (h : it ∈ adapterItems fs pre m records) :
    ∃ r ∈ records, it = mkItem pre r := by
  have hsub : it ∈ acceptedItems fs pre records := by
    cases m with
    | none =>
      rw [adapterItems, adapterLoop_nocap fs pre none capReached_none] at h
      simpa using h
    | some k =>
      cases Nat.eq_zero_or_pos k with
      | inl h0 =>
        subst h0
        rw [adapterItems, adapterLoop_nocap fs pre (some 0) capReached_zero] at h
        simpa using h
      | inr hpos =>
        rw [adapterItems, adapterLoop_cap fs pre k (by omega)] at h
        rw [if_neg (by simp only [List.length_nil]; omega)] at h
        simp only [List.nil_append] at h
        exact List.take_subset _ _ h
  simp only [acceptedItems, List.mem_map, List.mem_filter] at hsub
  obtain ⟨r, ⟨hr, _⟩, hit⟩ := hsub
  exact ⟨r, hr, hit.symm⟩

/-- C1: for every record sequence, field prefix and optional cap, the
adapter produces exactly one Indexed Item per record whose path field is
truthy and exists on the filesystem, in original record order, skipping the
rest, and truncates at `max_images` accepted items when a (nonzero) cap is
set. -/
theorem adapter_order_and_cap (fs : Value → Bool) (pre : String)
    (records : List RecordF) :
    adapterItems fs pre none records = acceptedItems fs pre records ∧
    ∀ k : Nat, 1 ≤ k →
      adapterItems fs pre (some k) records =
        (acceptedItems fs pre records).take k := by
  constructor
  · rw [adapterItems, adapterLoop_nocap fs pre none capReached_none records]
    simp
  · intro k hk
    rw [adapterItems, adapterLoop_cap fs pre k (by omega) records]
    rw [if_neg (by simp only [List.length_nil]; omega)]
    simp

/-- C1 witness: on the five demo records (three of which resolve), a cap of
two keeps the first two accepted items. -/
theorem adapter_order_and_cap_witness :
    (1 ≤ 2) ∧
    adapterItems demoFs "all_images" (some 2) demoRecords =
      (acceptedItems demoFs "all_images" demoRecords).take 2 :=
  ⟨by decide,
   (adapter_order_and_cap demoFs "all_images" demoRecords).2 2 (by decide)⟩

/-- C10: a cap of `0` is falsy in the loop's `if max_images and ...` test,
so it behaves exactly like an unset cap: every resolvable record is
accepted, not none of them. -/
theorem adapter_cap_zero (fs : Value → Bool) (pre : String)
    (records : List RecordF) :
    adapterItems fs pre (some 0) records = adapterItems fs pre none records ∧
    adapterItems fs pre (some 0) records = acceptedItems fs pre records := by
  have h0 := adapterLoop_nocap fs pre (some 0) capReached_zero records []
  have h1 := adapterLoop_nocap fs pre none capReached_none records []
  constructor
  · rw [adapterItems, adapterItems, h0, h1]
  · rw [adapterItems, h0]
    simp

/-- C9: every item the adapter returns has `item_id` equal to the file
basename of its image path (decoded as UTF-8 text when the path is bytes). -/
theorem item_id_is_basename (fs : Value → Bool) (pre : String) (m : Option Nat)
    (records : List RecordF) (it : IndexedItem)
    (h : it ∈ adapterItems fs pre m records) :
    it.item_id = basename (pathStr it.image_path) := by
  obtain ⟨r, _, rfl⟩ := mem_adapterItems fs pre m records it h
  rfl

/-- C9 witness: the item built from the bytes-path demo record is in the
adapter output and satisfies the basename invariant. -/
theorem item_id_is_basename_witness :
    (mkItem "all_images" demoRecord3 ∈ adapterItems demoFs "all_images" none demoRecords) ∧
    (mkItem "all_images" demoRecord3).item_id =
      basename (pathStr (mkItem "all_images" demoRecord3).image_path) :=
  ⟨by decide,
   item_id_is_basename demoFs "all_images" none demoRecords _ (by decide)⟩

/-- C5: `safe_decode` decodes bytes as UTF-8 text, turns `None` into the
default (the adapter always passes `""`), converts everything else through
`str(...)`, and is the one coercion applied to every metadata field of
every accepted record. -/
theorem safe_decode_spec :
    (∀ b d, safe_decode (Value.vBytes b) d = b) ∧
    (∀ d, safe_decode Value.vNone d = d) ∧
    (∀ v d, (∀ b, v ≠ Value.vBytes b) → v ≠ Value.vNone →
      safe_decode v d = pyStr v) ∧
    (∀ pre r, buildMetadata pre r =
      metadataKeys.map (fun k => (k, safe_decode (r (pre ++ "/" ++ k)) ""))) ∧
    (∀ fs pre m records it, it ∈ adapterItems fs pre m records →
      ∃ r ∈ records, it.metadata = buildMetadata pre r) := by
  refine ⟨fun b d => rfl, fun d => rfl, ?_, fun pre r => rfl, ?_⟩
  · intro v d hb hn
    cases v with
    | vNone => exact absurd rfl hn
    | vBytes b => exact absurd rfl (hb b)
    | vStr s => rfl
    | vInt n => rfl
  · intro fs pre m records it h
    obtain ⟨r, hr, rfl⟩ := mem_adapterItems fs pre m records it h
    exact ⟨r, hr, rfl⟩

/-- C5 witness: the `str(...)` branch at a concrete `int`, and the uniform
coercion on an item actually produced by the demo adapter. -/
theorem safe_decode_spec_witness :
    ((∀ b : String, Value.vInt (-3) ≠ Value.vBytes b) ∧
      Value.vInt (-3) ≠ Value.vNone ∧
      safe_decode (Value.vInt (-3)) "" = pyStr (Value.vInt (-3))) ∧
    ((mkItem "all_images" demoRecord1 ∈
        adapterItems demoFs "all_images" none demoRecords) ∧
      ∃ r ∈ demoRecords,
        (mkItem "all_images" demoRecord1).metadata =
          buildMetadata "all_images" r) :=
  ⟨⟨fun b => by simp, by simp,
    safe_decode_spec.2.2.1 _ "" (fun b => by simp) (by simp)⟩,
   ⟨by decide,
    safe_decode_spec.2.2.2.2 demoFs "all_images" none demoRecords _ (by decide)⟩⟩

/-! ### Batch partitioning -/

theorem chunkList_nil {α : Type u} (B : Nat) : chunkList B ([] : List α) = [] := by
  rw [chunkList]

theorem chunkList_ne_nil {α : Type u} (B : Nat) (x : α) (xs : List α) :
    chunkList B (x :: xs) ≠ [] := by
  rw [chunkList]
  exact List.cons_ne_nil _ _

/-- The batches concatenate back to the original list: the partition is
consecutive and order-preserving. -/
theorem chunkList_flatten {α : Type u} (B : Nat) (hB : 1 ≤ B) :
    (l : List α) → (chunkList B l).flatten = l
  | [] => by rw [chunkList_nil]; rfl
  | x :: xs => by
    rw [chunkList, List.flatten_cons, chunkList_flatten B hB (xs.drop (B - 1)),
      List.cons_append, List.take_append_drop]
termination_by l => l.length
decreasing_by
  simp only [List.length_drop, List.length_cons]
  omega

/-- The number of batches is `⌈N / B⌉`, written `(N + B - 1) / B`. -/
theorem chunkList_length {α : Type u} (B : Nat) (hB : 1 ≤ B) :
    (l : List α) → (chunkList B l).length = (l.length + B - 1) / B
  | [] => by
    rw [chunkList_nil]
    simp only [List.length_nil, Nat.zero_add]
    exact (Nat.div_eq_of_lt (by omega)).symm
  | x :: xs => by
    rw [chunkList, List.length_cons, chunkList_length B hB (xs.drop (B - 1))]
    simp only [List.length_drop, List.length_cons]
    have h1 : xs.length + 1 + B - 1 = xs.length + B := by omega
    rw [h1, Nat.add_div_right _ (by omega)]
    by_cases h : B ≤ xs.length + 1
    · have h2 : xs.length - (B - 1) + B - 1 = xs.length := by omega
      rw [h2]
    · have h2 : xs.length - (B - 1) = 0 := by omega
      rw [h2]
      have h3 : (0 + B - 1) / B = 0 := Nat.div_eq_of_lt (by omega)
      have h4 : xs.length / B = 0 := Nat.div_eq_of_lt (by omega)
      omega
termination_by l => l.length
decreasing_by
  simp only [List.length_drop, List.length_cons]
  omega

/-- Every batch except the last has exactly `B` items; the last is nonempty
and has at most `B`. -/
theorem chunkList_sizes {α : Type u} (B : Nat) (hB : 1 ≤ B) :
    (l : List α) →
      (∀ c ∈ (chunkList B l).dropLast, c.length = B) ∧
      (∀ c ∈ (chunkList B l).getLast?, 1 ≤ c.length ∧ c.length ≤ B)
  | [] => by
    rw [chunkList_nil]
    constructor <;> simp
  | x :: xs => by
    obtain ⟨ihdrop, ihlast⟩ := chunkList_sizes B hB (xs.drop (B - 1))
    rw [chunkList]
    cases hrest : chunkList B (xs.drop (B - 1)) with
    | nil =>
      constructor
      · simp
      · intro c hc
        rw [List.getLast?_singleton, Option.mem_def, Option.some.injEq] at hc
        subst hc
        simp only [List.length_cons, List.length_take]
        omega
    | cons c0 cs =>
      rw [hrest] at ihdrop ihlast
      have hlt : B - 1 < xs.length := by
        by_contra hh
        have hdrop : xs.drop (B - 1) = [] := List.drop_eq_nil_of_le (by omega)
        rw [hdrop, chunkList_nil] at hrest
        exact List.cons_ne_nil c0 cs hrest.symm
      constructor
      · intro c hc
        rw [List.dropLast_cons₂] at hc
        rcases List.mem_cons.mp hc with h | h
        · subst h
          simp only [List.length_cons, List.length_take]
          omega
        · exact ihdrop c h
      · intro c hc
        rw [List.getLast?_cons_cons] at hc
        exact ihlast c hc
termination_by l => l.length
decreasing_by
  simp only [List.length_drop, List.length_cons]
  omega

/-- C3: partitioning `N` items with batch size `B ≥ 1` yields
`⌈N / B⌉` consecutive batches that concatenate back to the input in order,
every batch of size exactly `B` except the last, which is nonempty and at
most `B`. -/
theorem batching_spec {α : Type u} (B : Nat) (hB : 1 ≤ B) (l : List α) :
    (chunkList B l).length = (l.length + B - 1) / B ∧
    (chunkList B l).flatten = l ∧
    (∀ c ∈ (chunkList B l).dropLast, c.length = B) ∧
    (∀ c ∈ (chunkList B l).getLast?, 1 ≤ c.length ∧ c.length ≤ B) :=
  ⟨chunkList_length B hB l, chunkList_flatten B hB l,
   (chunkList_sizes B hB l).1, (chunkList_sizes B hB l).2⟩

/-- C3 witness: five items in batches of two. -/
theorem batching_spec_witness :
    (1 ≤ 2) ∧
    ((chunkList 2 [0, 1, 2, 3, 4]).length = (5 + 2 - 1) / 2 ∧
      (chunkList 2 [0, 1, 2, 3, 4]).flatten = [0, 1, 2, 3, 4] ∧
      (∀ c ∈ (chunkList 2 [0, 1, 2, 3, 4]).dropLast, c.length = 2) ∧
      (∀ c ∈ (chunkList 2 [0, 1, 2, 3, 4]).getLast?, 1 ≤ c.length ∧ c.length ≤ 2)) :=
  ⟨by decide, batching_spec 2 (by decide) [0, 1, 2, 3, 4]⟩

/-! ### Image preprocessor -/

/-- C8: preprocessing the all-black `224 × 224` image yields a tensor whose
per-channel mean is exactly `-mean[c] / std[c]` (exact in `ℚ`, hence within
any floating tolerance). -/
theorem black_channel_mean (c : Nat) :
    channelMean c (transformPipe blackImage) = -(meanC c) / stdC c := by
  have hpix : ∀ i j : Nat, (transformPipe blackImage).pix c i j =
      -(meanC c) / stdC c := by
    intro i j
    simp only [transformPipe, normalizeT, toTensor, resize224, blackImage]
    rw [zero_div, zero_sub, neg_div]
  have hrow : ∀ i ∈ Finset.range 224,
      (∑ j ∈ Finset.range 224, (transformPipe blackImage).pix c i j) =
        224 * (-(meanC c) / stdC c) := by
    intro i _
    rw [Finset.sum_congr rfl (fun j _ => hpix i j), Finset.sum_const,
      Finset.card_range, nsmul_eq_mul]
    norm_num
  rw [channelMean, Finset.sum_congr rfl hrow, Finset.sum_const,
    Finset.card_range, nsmul_eq_mul]
  push_cast
  have harr : (224 : ℚ) * (224 * (-(meanC c) / stdC c)) =
      (224 * 224) * (-(meanC c) / stdC c) := by ring
  rw [harr]
  exact mul_div_cancel_left₀ _ (by norm_num)

/-! ### Item accessor -/

/-- C4: on a decoding failure at a valid index, `__getitem__` does not
propagate the error: it substitutes the deterministic placeholder (the
configured transform applied to the all-black `224 × 224` image, or the
`3 × 224 × 224` zero tensor when no transform is configured), logs the
failure, and returns the item's identifier and metadata unchanged. -/
theorem getitem_placeholder (cfg : EmbedConfig) (items : List IndexedItem)
    (idx : Nat) (hidx : idx < items.length)
    (hfail : cfg.decodeImg ((items.getD idx defaultItem).image_path) = none) :
    getitem cfg items idx =
      { image := placeholderImage cfg.transform
        image_id := (items.getD idx defaultItem).item_id
        metadata := (items.getD idx defaultItem).metadata
        errorLogged := true } ∧
    (∀ t, cfg.transform = some t →
      placeholderImage cfg.transform = ImageOut.tens (t blackImage)) ∧
    (cfg.transform = none →
      placeholderImage cfg.transform = ImageOut.tens zeros224) ∧
    blackImage.height = 224 ∧ blackImage.width = 224 ∧
    (∀ i j ch, blackImage.pixel i j ch = 0) ∧
    (∀ ch i j, zeros224.pix ch i j = 0) := by
  refine ⟨?_, ?_, ?_, rfl, rfl, fun i j ch => rfl, fun ch i j => rfl⟩
  · simp only [getitem, getitemOfItem, hfail]
  · intro t ht
    rw [ht]
    rfl
  · intro ht
    rw [ht]
    rfl

/-- C4 witness: the demo item with the undecodable bytes path, under the
transform-free demo configuration. -/
theorem getitem_placeholder_witness :
    (1 < demoItems.length) ∧
    demoCfg.decodeImg ((demoItems.getD 1 defaultItem).image_path) = none ∧
    (getitem demoCfg demoItems 1 =
        { image := placeholderImage demoCfg.transform
          image_id := (demoItems.getD 1 defaultItem).item_id
          metadata := (demoItems.getD 1 defaultItem).metadata
          errorLogged := true } ∧
      (∀ t, demoCfg.transform = some t →
        placeholderImage demoCfg.transform = ImageOut.tens (t blackImage)) ∧
      (demoCfg.transform = none →
        placeholderImage demoCfg.transform = ImageOut.tens zeros224) ∧
      blackImage.height = 224 ∧ blackImage.width = 224 ∧
      (∀ i j ch, blackImage.pixel i j ch = 0) ∧
      (∀ ch i j, zeros224.pix ch i j = 0)) :=
  ⟨by decide, by rfl,
   getitem_placeholder demoCfg demoItems 1 (by decide) (by rfl)⟩

/-! ### Batch embedding loop -/

theorem getitemOfItem_id (cfg : EmbedConfig) (it : IndexedItem) :
    (getitemOfItem cfg it).image_id = it.item_id := by
  cases h : cfg.decodeImg it.image_path <;> simp [getitemOfItem, h]

theorem getitemOfItem_md (cfg : EmbedConfig) (it : IndexedItem) :
    (getitemOfItem cfg it).metadata = it.metadata := by
  cases h : cfg.decodeImg it.image_path <;> simp [getitemOfItem, h]

theorem lookupStr_cons_self (k v : String) (md : List (String × String)) :
    lookupStr k ((k, v) :: md) = v := by
  rw [lookupStr, List.find?_cons_of_pos]
  · rfl
  · exact beq_self_eq_true k

theorem lookupStr_cons_ne (k k' v : String) (md : List (String × String))
    (h : k' ≠ k) : lookupStr k' ((k, v) :: md) = lookupStr k' md := by
  rw [lookupStr, lookupStr, List.find?_cons_of_neg]
  simp only [Bool.not_eq_true]
  exact beq_eq_false_iff_ne.mpr (Ne.symm h)

/-- Re-reading a dictionary through a duplicate-free key list that matches
its own key sequence reproduces the dictionary. -/
theorem keys_lookup : ∀ (keys : List String) (md : List (String × String)),
    keys.Nodup → md.map Prod.fst = keys →
    keys.map (fun k => (k, lookupStr k md)) = md
  | [], md, _, hsh => by
    have : md = [] := List.map_eq_nil_iff.mp hsh
    rw [this]
    rfl
  | k :: ks, md, hnd, hsh => by
    cases md with
    | nil => simp at hsh
    | cons p md' =>
      obtain ⟨p1, p2⟩ := p
      simp only [List.map_cons, List.cons.injEq] at hsh
      obtain ⟨hp1, hrest⟩ := hsh
      subst hp1
      rw [List.nodup_cons] at hnd
      rw [List.map_cons, lookupStr_cons_self]
      congr 1
      have hmap : ks.map (fun k' => (k', lookupStr k' ((p1, p2) :: md'))) =
          ks.map (fun k' => (k', lookupStr k' md')) := by
        apply List.map_congr_left
        intro k' hk'
        rw [lookupStr_cons_ne p1 k' p2 md' (fun he => hnd.1 (he ▸ hk'))]
      rw [hmap]
      exact keys_lookup ks md' hnd.2 hrest

/-- A `map`-then-`getD` collapses to the mapped element at valid indices. -/
theorem getD_map_of_lt {α β : Type u} (l : List α) (g : α → β) (d : β) (i : Nat)
    (h : i < l.length) : (l.map g).getD i d = g (l.get ⟨i, h⟩) := by
  rw [List.getD_eq_getElem?_getD, List.getElem?_map,
    List.getElem?_eq_getElem h]
  rfl

/-- Collating a batch of uniformly shaped dictionaries and re-splitting it
positionally reproduces the batch: this is the alignment fact behind the
loop's metadata reconstruction. -/
theorem batchMds_eq (triples : List GetItemResult)
    (h : ∀ t ∈ triples, t.metadata.map Prod.fst = metadataKeys) :
    batchMds triples = triples.map GetItemResult.metadata := by
  have hn : metadataKeys.Nodup := by decide
  rw [batchMds]
  have hcol : collateMeta metadataKeys (triples.map GetItemResult.metadata) =
      metadataKeys.map
        (fun k => (k, triples.map (fun t => lookupStr k t.metadata))) := by
    rw [collateMeta]
    apply List.map_congr_left
    intro k _
    rw [List.map_map]
    rfl
  rw [hcol]
  have hhead : (metadataKeys.map
      (fun k => (k, triples.map (fun t => lookupStr k t.metadata)))).head? =
        some ("treatment",
          triples.map (fun t => lookupStr "treatment" t.metadata)) := rfl
  rw [hhead]
  simp only [Option.map_some', Option.getD_some, List.length_map]
  apply List.ext_getElem
  · simp
  · intro i h1 h2
    have hi : i < triples.length := by simpa using h2
    rw [List.getElem_map, List.getElem_map, List.getElem_range]
    rw [uncollateAt, List.map_map]
    have hstep : metadataKeys.map
        ((fun p : String × List String => (p.1, p.2.getD i "")) ∘
          (fun k => (k, triples.map (fun t => lookupStr k t.metadata)))) =
        metadataKeys.map
          (fun k => (k, lookupStr k (triples.get ⟨i, hi⟩).metadata)) := by
      apply List.map_congr_left
      intro k _
      simp only [Function.comp_apply]
      rw [getD_map_of_lt triples (fun t => lookupStr k t.metadata) ("") i hi]
    rw [hstep]
    rw [keys_lookup metadataKeys (triples.get ⟨i, hi⟩).metadata hn
      (h (triples.get ⟨i, hi⟩) (List.get_mem triples i hi))]
    rfl

/-- The loop body folded over the batches extends the three result lists by
the per-batch contributions, in batch order. -/
theorem foldl_stepBatch (embedFn : List ImageOut → List (List ℚ))
    (batches : List (List GetItemResult)) :
    ∀ s : RunState,
      batches.foldl (stepBatch embedFn) s =
        { embs := s.embs ++
            (batches.map (fun b => embedFn (b.map GetItemResult.image))).flatten
          ids := s.ids ++
            (batches.map (fun b => b.map GetItemResult.image_id)).flatten
          mds := s.mds ++ (batches.map batchMds).flatten } := by
  induction batches with
  | nil => intro s; simp
  | cons b bs ih =>
    intro s
    rw [List.foldl_cons, ih]
    simp [stepBatch, List.flatten_cons, List.append_assoc]

/-- Mapping under a chunking and flattening is flattening then mapping. -/
theorem flatten_map_map {α β : Type u} (g : α → β) (chunks : List (List α)) :
    (chunks.map (fun ixs => ixs.map g)).flatten = chunks.flatten.map g :=
  (List.map_flatten g chunks).symm

/-- Enumerating a list by index through `getD` is just mapping over it. -/
theorem map_range_getD {α β : Type u} (l : List α) (d : α) (g : α → β) :
    (List.range l.length).map (fun i => g (l.getD i d)) = l.map g := by
  apply List.ext_getElem
  · simp
  · intro i h1 h2
    have hi : i < l.length := by simpa using h2
    rw [List.getElem_map, List.getElem_map, List.getElem_range]
    rw [List.getD_eq_getElem?_getD, List.getElem?_eq_getElem hi]
    rfl

/-- C2: for every batch size `B ≥ 1`, the embedding loop emits its rows in
exactly the input item order — identifiers and metadata line up with the
input for any per-batch embedding function, and when the embedding function
is an order-preserving per-item map (the stated contract of the network),
every row's vector, identifier and metadata come from the same input item. -/
theorem runner_order_alignment (cfg : EmbedConfig) (items : List IndexedItem)
    (B : Nat) (hB : 1 ≤ B)
    (hmeta : ∀ it ∈ items, it.metadata.map Prod.fst = metadataKeys) :
    (∀ embedFn,
      (runBatches embedFn cfg items B).ids = items.map IndexedItem.item_id ∧
      (runBatches embedFn cfg items B).mds = items.map IndexedItem.metadata) ∧
    (∀ f : ImageOut → List ℚ,
      collectRows (runBatches (List.map f) cfg items B) =
        items.map (fun it =>
          { image_id := it.item_id
            vector := f ((getitemOfItem cfg it).image)
            metadata := it.metadata })) := by
  have haux : ∀ {α : Type} (g : GetItemResult → α),
      (((chunkList B (List.range items.length)).map
          (fun ixs => ixs.map (getitem cfg items))).map
        (fun b => b.map g)).flatten =
        items.map (fun it => g (getitemOfItem cfg it)) := by
    intro α g
    rw [List.map_map]
    have h1 : ((fun (b : List GetItemResult) => b.map g) ∘
        fun (ixs : List Nat) => ixs.map (getitem cfg items)) =
        fun (ixs : List Nat) => ixs.map (fun i => g (getitem cfg items i)) := by
      funext ixs
      simp only [Function.comp_apply, List.map_map]
      rfl
    rw [h1, flatten_map_map, chunkList_flatten B hB]
    exact map_range_getD items defaultItem (fun it => g (getitemOfItem cfg it))
  have hrun : ∀ embedFn, runBatches embedFn cfg items B =
      { embs := (((chunkList B (List.range items.length)).map
            (fun ixs => ixs.map (getitem cfg items))).map
          (fun b => embedFn (b.map GetItemResult.image))).flatten
        ids := (((chunkList B (List.range items.length)).map
            (fun ixs => ixs.map (getitem cfg items))).map
          (fun b => b.map GetItemResult.image_id)).flatten
        mds := (((chunkList B (List.range items.length)).map
            (fun ixs => ixs.map (getitem cfg items))).map batchMds).flatten } := by
    intro embedFn
    rw [runBatches, foldl_stepBatch]
    simp only [List.nil_append]
  have hids : ∀ embedFn, (runBatches embedFn cfg items B).ids =
      items.map IndexedItem.item_id := by
    intro embedFn
    rw [hrun embedFn]
    dsimp only
    rw [haux GetItemResult.image_id]
    exact List.map_congr_left (fun it _ => getitemOfItem_id cfg it)
  have hmds : ∀ embedFn, (runBatches embedFn cfg items B).mds =
      items.map IndexedItem.metadata := by
    intro embedFn
    rw [hrun embedFn]
    dsimp only
    have hbatch : ((chunkList B (List.range items.length)).map
        (fun ixs => ixs.map (getitem cfg items))).map batchMds =
        ((chunkList B (List.range items.length)).map
          (fun ixs => ixs.map (getitem cfg items))).map
            (fun b => b.map GetItemResult.metadata) := by
      apply List.map_congr_left
      intro b hb
      apply batchMds_eq
      intro t ht
      obtain ⟨ixs, hixs, rfl⟩ := List.mem_map.mp hb
      obtain ⟨i, hi, rfl⟩ := List.mem_map.mp ht
      have hin : i ∈ List.range items.length := by
        have hmem : i ∈ (chunkList B (List.range items.length)).flatten :=
          List.mem_flatten.mpr ⟨ixs, hixs, hi⟩
        rwa [chunkList_flatten B hB] at hmem
      have hilt : i < items.length := List.mem_range.mp hin
      have hgd : items.getD i defaultItem = items.get ⟨i, hilt⟩ := by
        rw [List.getD_eq_getElem?_getD, List.getElem?_eq_getElem hilt]
        rfl
      rw [getitem, getitemOfItem_md, hgd]
      exact hmeta _ (List.get_mem items i hilt)
    rw [hbatch, haux GetItemResult.metadata]
    exact List.map_congr_left (fun it _ => getitemOfItem_md cfg it)
  have hembs : ∀ f : ImageOut → List ℚ,
      (runBatches (List.map f) cfg items B).embs =
        items.map (fun it => f ((getitemOfItem cfg it).image)) := by
    intro f
    rw [hrun (List.map f)]
    dsimp only
    have hb : ((chunkList B (List.range items.length)).map
        (fun ixs => ixs.map (getitem cfg items))).map
          (fun b => List.map f (b.map GetItemResult.image)) =
        ((chunkList B (List.range items.length)).map
          (fun ixs => ixs.map (getitem cfg items))).map
            (fun b => b.map (fun t => f t.image)) := by
      apply List.map_congr_left
      intro b _
      rw [List.map_map]
      rfl
    rw [hb, haux (fun t => f t.image)]
  refine ⟨fun embedFn => ⟨hids embedFn, hmds embedFn⟩, ?_⟩
  intro f
  rw [collectRows, hids (List.map f), hmds (List.map f), hembs f]
  rw [List.zip_map', List.zip_map', List.map_map]
  exact List.map_congr_left (fun it _ => rfl)

/-- C2 witness: the three demo items with batch size two and a constant
per-item embedding function. -/
theorem runner_order_alignment_witness :
    (1 ≤ 2) ∧
    (∀ it ∈ demoItems, it.metadata.map Prod.fst = metadataKeys) ∧
    collectRows (runBatches (List.map (fun _ => [(1 : ℚ)])) demoCfg demoItems 2) =
      demoItems.map (fun it =>
        { image_id := it.item_id
          vector := (fun _ => [(1 : ℚ)]) ((getitemOfItem demoCfg it).image)
          metadata := it.metadata }) :=
  ⟨by decide, by decide,
   (runner_order_alignment demoCfg demoItems 2 (by decide) (by decide)).2
     (fun _ => [(1 : ℚ)])⟩

/-! ### Result writer -/

/-- C7: the emitted table is a header row `image_id, dim_0, ..., dim_{k-1}`
followed by exactly one data row per Embedding Row in input order; header
and data rows each have `1 + k` cells, with the `image_id` column first. -/
theorem writer_shape (enc : ℚ → String) (k : Nat) (rows : List EmbeddingRow)
    (hlen : ∀ r ∈ rows, r.vector.length = k) :
    (writeTSVCells enc k rows).length = 1 + rows.length ∧
    (writeTSVCells enc k rows).head? = some (headerCells k) ∧
    (headerCells k).length = 1 + k ∧
    (headerCells k).head? = some "image_id" ∧
    (∀ i, i < k → (headerCells k).getD (i + 1) ("") = "dim_" ++ natStr i) ∧
    (writeTSVCells enc k rows).tail = rows.map (rowCells enc) ∧
    (∀ r ∈ rows, (rowCells enc r).length = 1 + k) ∧
    (∀ r ∈ rows, (rowCells enc r).head? = some r.image_id) := by
  refine ⟨?_, rfl, ?_, rfl, ?_, rfl, ?_, fun r _ => rfl⟩
  · simp only [writeTSVCells, List.length_cons, List.length_map]
    omega
  · simp only [headerCells, List.length_cons, List.length_map,
      List.length_range]
    omega
  · intro i hi
    rw [headerCells, List.getD_cons_succ]
    rw [getD_map_of_lt (List.range k) (fun i => "dim_" ++ natStr i) ("") i
      (by simpa using hi)]
    rw [List.get_eq_getElem, List.getElem_range]
  · intro r hr
    simp only [rowCells, List.length_cons, List.length_map, hlen r hr]
    omega

/-- C7 witness: the two demo rows with two-dimensional vectors. -/
theorem writer_shape_witness :
    (∀ r ∈ demoRows, r.vector.length = 2) ∧
    ((writeTSVCells encRat 2 demoRows).length = 1 + demoRows.length ∧
      (writeTSVCells encRat 2 demoRows).head? = some (headerCells 2) ∧
      (headerCells 2).length = 1 + 2 ∧
      (headerCells 2).head? = some "image_id" ∧
      (∀ i, i < 2 → (headerCells 2).getD (i + 1) ("") = "dim_" ++ natStr i) ∧
      (writeTSVCells encRat 2 demoRows).tail = demoRows.map (rowCells encRat) ∧
      (∀ r ∈ demoRows, (rowCells encRat r).length = 1 + 2) ∧
      (∀ r ∈ demoRows, (rowCells encRat r).head? = some r.image_id)) :=
  ⟨by decide, writer_shape encRat 2 demoRows (by decide)⟩

theorem splitChar_ne_nil (sep : Char) : ∀ l : List Char, splitChar sep l ≠ []
  | [] => by rw [splitChar]; exact List.cons_ne_nil _ _
  | c :: rest => by
    rw [splitChar]
    cases h : splitChar sep rest with
    | nil => exact List.cons_ne_nil _ _
    | cons p ps =>
      by_cases hc : c = sep
      · simp [hc]
      · simp [hc]

theorem splitChar_append (sep : Char) :
    ∀ (a rest : List Char), (∀ c ∈ a, c ≠ sep) →
      splitChar sep (a ++ sep :: rest) = a :: splitChar sep rest
  | [], rest, _ => by
    rw [List.nil_append, splitChar]
    cases h : splitChar sep rest with
    | nil => exact absurd h (splitChar_ne_nil sep rest)
    | cons p ps => simp
  | c :: a', rest, h => by
    rw [List.cons_append, splitChar,
      splitChar_append sep a' rest (fun x hx => h x (List.mem_cons_of_mem c hx))]
    have hc : c ≠ sep := h c (List.mem_cons_self c a')
    simp [hc]

theorem splitChar_no_sep (sep : Char) :
    ∀ l : List Char, (∀ c ∈ l, c ≠ sep) → splitChar sep l = [l]
  | [], _ => rfl
  | c :: rest, h => by
    rw [splitChar,
      splitChar_no_sep sep rest (fun x hx => h x (List.mem_cons_of_mem c hx))]
    have hc : c ≠ sep := h c (List.mem_cons_self c rest)
    simp [hc]

/-- Splitting a stream of separator-terminated lines recovers the lines,
plus one empty trailing part after the final separator. -/
theorem splitChar_lines (sep : Char) :
    ∀ lines : List (List Char), (∀ l ∈ lines, ∀ c ∈ l, c ≠ sep) →
      splitChar sep ((lines.map (fun l => l ++ [sep])).flatten) = lines ++ [[]]
  | [], _ => rfl
  | l :: ls, h => by
    rw [List.map_cons, List.flatten_cons, List.append_assoc,
      List.singleton_append,
      splitChar_append sep l _ (h l (List.mem_cons_self l ls)),
      splitChar_lines sep ls (fun l' hl' => h l' (List.mem_cons_of_mem l hl'))]
    rfl

theorem joinSep_singleton (sep : Char) (p : List Char) :
    joinSep sep [p] = p := rfl

theorem joinSep_cons_cons (sep : Char) (p q : List Char) (ps : List (List Char)) :
    joinSep sep (p :: q :: ps) = p ++ sep :: joinSep sep (q :: ps) := rfl

/-- Every character of a joined stream is the separator or from some part. -/
theorem mem_joinSep (sep : Char) :
    ∀ (parts : List (List Char)) (c : Char), c ∈ joinSep sep parts →
      c = sep ∨ ∃ p ∈ parts, c ∈ p
  | [], c, h => by rw [joinSep] at h; exact absurd h (List.not_mem_nil c)
  | [p], c, h => by
    rw [joinSep_singleton] at h
    exact Or.inr ⟨p, List.mem_cons_self p [], h⟩
  | p :: q :: ps, c, h => by
    rw [joinSep_cons_cons] at h
    rcases List.mem_append.mp h with h1 | h1
    · exact Or.inr ⟨p, List.mem_cons_self p (q :: ps), h1⟩
    · rcases List.mem_cons.mp h1 with h2 | h2
      · exact Or.inl h2
      · rcases mem_joinSep sep (q :: ps) c h2 with h3 | ⟨p', hp', hc⟩
        · exact Or.inl h3
        · exact Or.inr ⟨p', List.mem_cons_of_mem p hp', hc⟩

theorem splitChar_joinSep (sep : Char) :
    ∀ parts : List (List Char), parts ≠ [] →
      (∀ p ∈ parts, ∀ c ∈ p, c ≠ sep) →
      splitChar sep (joinSep sep parts) = parts
  | [], h, _ => absurd rfl h
  | [p], _, hf => by
    rw [joinSep_singleton]
    exact splitChar_no_sep sep p (hf p (List.mem_cons_self p []))
  | p :: q :: ps, _, hf => by
    rw [joinSep_cons_cons,
      splitChar_append sep p _ (hf p (List.mem_cons_self p (q :: ps))),
      splitChar_joinSep sep (q :: ps) (List.cons_ne_nil q ps)
        (fun p' hp' => hf p' (List.mem_cons_of_mem p hp'))]

theorem joinSep_ne_nil_of_head (sep : Char) (p : List Char)
    (ps : List (List Char)) (hp : p ≠ []) : joinSep sep (p :: ps) ≠ [] := by
  cases ps with
  | nil => rw [joinSep_singleton]; exact hp
  | cons q qs =>
    rw [joinSep_cons_cons]
    simp

theorem digitChar_isDigit : ∀ d < 10, (digitChar d).isDigit = true := by decide

theorem natStrAux_digits :
    ∀ (n : Nat) (acc : List Char), (∀ c ∈ acc, c.isDigit = true) →
      ∀ c ∈ natStrAux n acc, c.isDigit = true
  | 0, acc, hacc => by rw [natStrAux]; exact hacc
  | m + 1, acc, hacc => by
    rw [natStrAux]
    refine natStrAux_digits ((m + 1) / 10) _ (fun c hc => ?_)
    rcases List.mem_cons.mp hc with h | h
    · rw [h]
      exact digitChar_isDigit _ (Nat.mod_lt _ (by omega))
    · exact hacc c h
termination_by n _ => n
decreasing_by exact Nat.div_lt_self (Nat.succ_pos m) (by omega)

/-- Every character of a rendered natural number is a decimal digit. -/
theorem natStr_digits (n : Nat) : ∀ c ∈ (natStr n).toList, c.isDigit = true := by
  rw [natStr]
  split
  · intro c hc
    have h0 : ("0").toList = ['0'] := rfl
    rw [h0, List.mem_singleton] at hc
    rw [hc]
    decide
  · intro c hc
    exact natStrAux_digits n [] (fun c' hc' => absurd hc' (List.not_mem_nil c')) c hc

/-- No header cell contains a newline or a tab. -/
theorem headerCells_chars (k : Nat) :
    ∀ s ∈ headerCells k, ∀ c ∈ s.toList, c ≠ '\n' ∧ c ≠ '\t' := by
  intro s hs c hc
  rw [headerCells] at hs
  rcases List.mem_cons.mp hs with h | h
  · subst h
    have hall : ∀ c ∈ ("image_id").toList, c ≠ '\n' ∧ c ≠ '\t' := by decide
    exact hall c hc
  · obtain ⟨i, _, rfl⟩ := List.mem_map.mp h
    rw [show ("dim_" ++ natStr i).toList =
      ("dim_").toList ++ (natStr i).toList from String.data_append _ _] at hc
    rcases List.mem_append.mp hc with h1 | h1
    · have hall : ∀ c ∈ ("dim_").toList, c ≠ '\n' ∧ c ≠ '\t' := by decide
      exact hall c h1
    · have hd : c.isDigit = true := natStr_digits i c h1
      constructor
      · intro he
        rw [he] at hd
        exact absurd hd (by decide)
      · intro he
        rw [he] at hd
        exact absurd hd (by decide)

/-- C6: writing an Embedding Row set to the tab-separated output and
reparsing it yields the identical `image_id` sequence in the same order and
the identical vector values (exact in `ℚ`, hence within any floating
tolerance), provided the identifiers are nonempty and separator-free and
the numeric decoder inverts the encoder on every written value — the
contract of the numeric text format. -/
theorem tsv_roundtrip (enc : ℚ → String) (dec : String → Option ℚ) (k : Nat)
    (rows : List EmbeddingRow)
    (hid : ∀ r ∈ rows, r.image_id.toList ≠ [] ∧
      ∀ c ∈ r.image_id.toList, c ≠ '\n' ∧ c ≠ '\t')
    (hvec : ∀ r ∈ rows, ∀ q ∈ r.vector, dec (enc q) = some q ∧
      ∀ c ∈ (enc q).toList, c ≠ '\n' ∧ c ≠ '\t') :
    parseTSV dec (writeTSVChars enc k rows) =
      rows.map (fun r => (r.image_id, r.vector)) := by
  have hfile : writeTSVChars enc k rows =
      (((writeTSVCells enc k rows).map
        (fun line => joinSep '\t' (line.map String.toList))).map
          (fun l => l ++ ['\n'])).flatten := by
    rw [writeTSVChars, List.map_map]
    rfl
  have hcell_chars : ∀ line ∈ writeTSVCells enc k rows,
      ∀ p ∈ line.map String.toList, ∀ c ∈ p, c ≠ '\n' ∧ c ≠ '\t' := by
    intro line hline p hp c hc
    obtain ⟨s, hs, rfl⟩ := List.mem_map.mp hp
    rw [writeTSVCells] at hline
    rcases List.mem_cons.mp hline with h1 | h1
    · subst h1
      exact headerCells_chars k s hs c hc
    · obtain ⟨r, hr, rfl⟩ := List.mem_map.mp h1
      rw [rowCells] at hs
      rcases List.mem_cons.mp hs with h2 | h2
      · subst h2
        exact (hid r hr).2 c hc
      · obtain ⟨q, hq, rfl⟩ := List.mem_map.mp h2
        exact (hvec r hr q hq).2 c hc
  have hline_nl : ∀ l ∈ (writeTSVCells enc k rows).map
      (fun line => joinSep '\t' (line.map String.toList)), ∀ c ∈ l, c ≠ '\n' := by
    intro l hl c hc
    obtain ⟨line, hline, rfl⟩ := List.mem_map.mp hl
    rcases mem_joinSep '\t' _ c hc with h | ⟨p, hp, hcp⟩
    · rw [h]; decide
    · exact (hcell_chars line hline p hp c hcp).1
  have hline_ne : ∀ l ∈ (writeTSVCells enc k rows).map
      (fun line => joinSep '\t' (line.map String.toList)), l ≠ [] := by
    intro l hl
    obtain ⟨line, hline, rfl⟩ := List.mem_map.mp hl
    rw [writeTSVCells] at hline
    rcases List.mem_cons.mp hline with h1 | h1
    · subst h1
      rw [headerCells, List.map_cons]
      exact joinSep_ne_nil_of_head _ _ _ (by decide)
    · obtain ⟨r, hr, rfl⟩ := List.mem_map.mp h1
      rw [rowCells, List.map_cons]
      exact joinSep_ne_nil_of_head _ _ _ (hid r hr).1
  rw [parseTSV, hfile, splitChar_lines _ _ hline_nl, List.filter_append]
  have hemp : (([[]] : List (List Char)).filter (fun l => !l.isEmpty)) = [] := rfl
  rw [hemp, List.append_nil]
  have hfilter : ∀ l ∈ (writeTSVCells enc k rows).map
      (fun line => joinSep '\t' (line.map String.toList)), (!l.isEmpty) = true := by
    intro l hl
    cases hl2 : l with
    | nil => exact absurd hl2 (hline_ne l hl)
    | cons c cs => rfl
  rw [List.filter_eq_self.mpr hfilter]
  rw [writeTSVCells, List.map_cons, List.drop_succ_cons, List.drop_zero,
    List.map_map, List.map_map]
  apply List.map_congr_left
  intro r hr
  simp only [Function.comp_apply]
  have hsplit : splitChar '\t' (joinSep '\t' ((rowCells enc r).map String.toList)) =
      (rowCells enc r).map String.toList := by
    apply splitChar_joinSep
    · rw [rowCells, List.map_cons]
      exact List.cons_ne_nil _ _
    · intro p hp c hc
      have hmem : rowCells enc r ∈ writeTSVCells enc k rows := by
        rw [writeTSVCells]
        exact List.mem_cons_of_mem _ (List.mem_map_of_mem _ hr)
      exact (hcell_chars (rowCells enc r) hmem p hp c hc).2
  rw [hsplit, rowCells, List.map_cons]
  show (String.mk r.image_id.toList,
      ((r.vector.map enc).map String.toList).map
        (fun cell => (dec (String.mk cell)).getD 0)) =
    (r.image_id, r.vector)
  rw [List.map_map, List.map_map]
  congr 1
  have hpt : ∀ q ∈ r.vector,
      (((fun cell => (dec (String.mk cell)).getD 0) ∘
        String.toList) ∘ enc) q = q := by
    intro q hq
    simp only [Function.comp_apply]
    have h1 : String.mk (String.toList (enc q)) = enc q := rfl
    rw [h1, (hvec r hr q hq).1, Option.getD_some]
  rw [List.map_congr_left hpt, List.map_id']

/-- C6 witness: the two demo rows written and reparsed through the concrete
`num/den` codec. -/
theorem tsv_roundtrip_witness :
    (∀ r ∈ demoRows, r.image_id.toList ≠ [] ∧
      ∀ c ∈ r.image_id.toList, c ≠ '\n' ∧ c ≠ '\t') ∧
    (∀ r ∈ demoRows, ∀ q ∈ r.vector, decRat (encRat q) = some q ∧
      ∀ c ∈ (encRat q).toList, c ≠ '\n' ∧ c ≠ '\t') ∧
    parseTSV decRat (writeTSVChars encRat 2 demoRows) =
      demoRows.map (fun r => (r.image_id, r.vector)) :=
  ⟨by decide, by decide,
   tsv_roundtrip encRat decRat 2 demoRows (by decide) (by decide)⟩
